import Mathlib

/-!
Verification of the stream-socket polyfill (`src/polyfill/http.ts`).

The development shallowly embeds the pure logic of the file:

* `parseUpgradeResponse` — the HTTP/1.1 upgrade response parser
  (`parseUpgradeResponse`, lines 102-148 of the source), together with the
  text helpers it relies on (UTF-8 decoding, `indexOf`, `split`, `trim`,
  `toLowerCase`), modelled over `List Nat` (bytes) and `List Char` (text).
* the fake socket returned by `createStreamSocket` (lines 165-320),
  modelled as an explicit state record `SockState` with an event trace, a
  FIFO microtask queue, and explicit lists of pending writer promises whose
  settlement is an environment-chosen step.
* the rejection normalization of the `end` closure returned by `request`
  (lines 64-71).

Asynchrony is modelled by making every `queueMicrotask` enqueue a `Task`
and every writer promise enqueue a pending handler; `Act`/`step` ranges
over all caller operations, microtask dequeues and promise settlements.
-/

namespace WsWeb

/-! ## Socket adapter model (`createStreamSocket`, src/polyfill/http.ts:165-320) -/

/-- Events emitted by the fake socket (`fakeSocket.emit` calls).
`cb i rejected` records the invocation of the user callback with id `i`
(`rejected = true` when it was invoked from a rejection path with the error
argument). -/
inductive Ev where
  | error
  | close (arg : Option Bool)
  | finish
  | endE
  | dataEv (bytes : List Nat)
  | cb (id : Nat) (rejected : Bool)
deriving DecidableEq, Repr

/-- Deferred work enqueued with `queueMicrotask`. -/
inductive Task where
  | emitClose (arg : Option Bool)
  | finishEnd
  | userCb (id : Nat)
deriving DecidableEq, Repr

/-- Callback attached to a `writer.write` promise: a user callback, or the
`() => writeAndFinish()` closure created by `end(data)` (which captures the
user callback passed to `end`). -/
inductive WriteCb where
  | user (id : Nat)
  | finisher (endCb : Option Nat)
deriving DecidableEq, Repr

/-- Handler attached to a `writer.close()` promise:
`swallow` is `.catch(() => {})` (from `destroy`, line 189);
`emitIfTruthy` is `.catch((err) => { if (err) fakeSocket.emit("error", err) })`
(from `writeAndFinish`, lines 262-264). -/
inductive CloseCb where
  | swallow
  | emitIfTruthy
deriving DecidableEq, Repr

/-- Outcome of a `writer.close()` promise, chosen by the environment. -/
inductive CloseOutcome where
  | fulfilled
  | rejectedTruthy
  | rejectedFalsy
deriving DecidableEq, Repr

/-- State of one fake socket: the `_readableState`/`_writableState` flags,
the cork queue, the microtask queue, the pending writer promises, and the
observable traces (events emitted; underlying writer writes and closes;
reader cancellations). -/
structure SockState where
  readableDestroyed : Bool
  endEmitted : Bool
  finished : Bool
  errorEmitted : Bool
  writableDestroyed : Bool
  closed : Bool
  corked : Bool
  corkedQueue : List (List Nat)
  corkedLastCb : Option WriteCb
  microtasks : List Task
  pendingWrites : List (Option WriteCb)
  pendingCloses : List CloseCb
  writerWrites : List (List Nat)
  writerCloses : Nat
  readerCancels : Nat
  events : List Ev
deriving DecidableEq, Repr

/-- The freshly created socket (lines 171-180). -/
def initSock : SockState :=
  { readableDestroyed := false, endEmitted := false, finished := false
    errorEmitted := false, writableDestroyed := false, closed := false
    corked := false, corkedQueue := [], corkedLastCb := none
    microtasks := [], pendingWrites := [], pendingCloses := []
    writerWrites := [], writerCloses := 0, readerCancels := 0, events := [] }

/-- `fakeSocket.emit(e)`. -/
def emit (s : SockState) (e : Ev) : SockState :=
  { s with events := s.events ++ [e] }

/-- `fakeSocket.destroy(err?)` (lines 182-205). `hasErr` records whether an
error argument was supplied. -/
def destroy (hasErr : Bool) (s : SockState) : SockState :=
  if s.readableDestroyed then s
  else
    let s1 : SockState :=
      { s with readableDestroyed := true, writableDestroyed := true
               writerCloses := s.writerCloses + 1
               pendingCloses := s.pendingCloses ++ [CloseCb.swallow]
               readerCancels := s.readerCancels + 1 }
    let s2 := if hasErr then emit s1 Ev.error else s1
    if s2.closed then s2
    else { s2 with closed := true
                   microtasks := s2.microtasks ++ [Task.emitClose (some hasErr)] }

/-- `doWrite(data, cb)` (lines 230-243): issue the underlying write and
register the promise handlers. -/
def doWrite (d : List Nat) (cb : Option WriteCb) (s : SockState) : SockState :=
  { s with writerWrites := s.writerWrites ++ [d]
           pendingWrites := s.pendingWrites ++ [cb] }

/-- `fakeSocket.write(data, cb)` (lines 246-253). -/
def write (d : List Nat) (cb : Option WriteCb) (s : SockState) : SockState :=
  if s.corked then
    { s with corkedQueue := s.corkedQueue ++ [d], corkedLastCb := cb }
  else doWrite d cb s

/-- `fakeSocket.cork()` (lines 209-211). -/
def cork (s : SockState) : SockState := { s with corked := true }

/-- `fakeSocket.uncork()` (lines 212-224). -/
def uncork (s : SockState) : SockState :=
  let s1 : SockState := { s with corked := false }
  if s1.corkedQueue = [] then s1
  else
    doWrite s1.corkedQueue.flatten s1.corkedLastCb { s1 with corkedQueue := [] }

/-- The `writeAndFinish` closure inside `end` (lines 258-275); `userCb` is
the callback passed to `end`. -/
def writeAndFinish (userCb : Option Nat) (s : SockState) : SockState :=
  let s1 : SockState :=
    { s with finished := true
             writerCloses := s.writerCloses + 1
             pendingCloses := s.pendingCloses ++ [CloseCb.emitIfTruthy] }
  let s2 := match userCb with
    | some i => { s1 with microtasks := s1.microtasks ++ [Task.userCb i] }
    | none => s1
  { s2 with microtasks := s2.microtasks ++ [Task.finishEnd] }

/-- `fakeSocket.end(data?, cb?)` (lines 255-282). -/
def endCall (d : Option (List Nat)) (userCb : Option Nat) (s : SockState) : SockState :=
  if s.finished then s
  else
    match d with
    | some bytes => write bytes (some (WriteCb.finisher userCb)) s
    | none => writeAndFinish userCb s

/-- Run a write promise handler: the `.then` / `.catch` of `doWrite`
(lines 231-242). -/
def runWriteCb (cb : Option WriteCb) (rejected : Bool) (s : SockState) : SockState :=
  match cb with
  | none => if rejected then emit s Ev.error else s
  | some (WriteCb.user i) => emit s (Ev.cb i rejected)
  | some (WriteCb.finisher u) => writeAndFinish u s

/-- Settle the `i`-th pending write promise. -/
def settleWrite (i : Nat) (rejected : Bool) (s : SockState) : SockState :=
  match s.pendingWrites.get? i with
  | none => s
  | some cb =>
      runWriteCb cb rejected { s with pendingWrites := s.pendingWrites.eraseIdx i }

/-- Settle the `i`-th pending `writer.close()` promise. -/
def settleClose (i : Nat) (o : CloseOutcome) (s : SockState) : SockState :=
  match s.pendingCloses.get? i with
  | none => s
  | some h =>
    let s1 : SockState := { s with pendingCloses := s.pendingCloses.eraseIdx i }
    match h, o with
    | CloseCb.emitIfTruthy, CloseOutcome.rejectedTruthy => emit s1 Ev.error
    | _, _ => s1

/-- Run one dequeued microtask. -/
def runTask (s : SockState) (t : Task) : SockState :=
  match t with
  | Task.emitClose arg => emit s (Ev.close arg)
  | Task.userCb i => emit s (Ev.cb i false)
  | Task.finishEnd =>
    let s1 := emit s Ev.finish
    if s1.endEmitted then s1
    else emit { s1 with endEmitted := true } Ev.endE

/-- Dequeue and run the first microtask, if any. -/
def runMicrotask (s : SockState) : SockState :=
  match s.microtasks with
  | [] => s
  | t :: ts => runTask { s with microtasks := ts } t

/-- Run a list of tasks in order. Tasks never enqueue further tasks, so
draining the queue is a single pass. -/
def drainFrom : List Task → SockState → SockState
  | [], s => s
  | t :: ts, s => drainFrom ts (runTask s t)

/-- Empty the microtask queue, running every queued task in FIFO order. -/
def drain (s : SockState) : SockState :=
  drainFrom s.microtasks { s with microtasks := [] }

/-- A successful background-pump read (line 308). -/
def pumpData (bytes : List Nat) (s : SockState) : SockState :=
  emit s (Ev.dataEv bytes)

/-- The background pump observing end-of-stream (lines 298-306). -/
def pumpDone (s : SockState) : SockState :=
  let s1 : SockState := { s with readableDestroyed := true }
  if s1.closed then s1
  else { s1 with closed := true, microtasks := s1.microtasks ++ [Task.emitClose none] }

/-- The background pump catching a read failure (lines 310-316). -/
def pumpError (s : SockState) : SockState :=
  if s.readableDestroyed then s else destroy true s

/-- All steps of the system: caller operations, microtask dequeues,
promise settlements and pump events. -/
inductive Act where
  | destroyA (hasErr : Bool)
  | endA (d : Option (List Nat)) (cb : Option Nat)
  | writeA (d : List Nat) (cb : Option WriteCb)
  | corkA
  | uncorkA
  | micro
  | settleW (i : Nat) (rejected : Bool)
  | settleC (i : Nat) (o : CloseOutcome)
  | pumpDataA (bytes : List Nat)
  | pumpDoneA
  | pumpErrorA
deriving DecidableEq, Repr

/-- One small step of the socket system. -/
def step : Act → SockState → SockState
  | Act.destroyA e, s => destroy e s
  | Act.endA d cb, s => endCall d cb s
  | Act.writeA d cb, s => write d cb s
  | Act.corkA, s => cork s
  | Act.uncorkA, s => uncork s
  | Act.micro, s => runMicrotask s
  | Act.settleW i r, s => settleWrite i r s
  | Act.settleC i o, s => settleClose i o s
  | Act.pumpDataA b, s => pumpData b s
  | Act.pumpDoneA, s => pumpDone s
  | Act.pumpErrorA, s => pumpError s

def isCloseEv : Ev → Bool
  | Ev.close _ => true
  | _ => false

def isErrorEv : Ev → Bool
  | Ev.error => true
  | _ => false

def isEndEv : Ev → Bool
  | Ev.endE => true
  | _ => false

/-- Number of `close` events emitted so far. -/
def closeCount (s : SockState) : Nat := s.events.countP isCloseEv

/-- Number of `error` events emitted so far. -/
def errorCount (s : SockState) : Nat := s.events.countP isErrorEv

/-- Number of `end` events emitted so far. -/
def endCount (s : SockState) : Nat := s.events.countP isEndEv

/-- The `end`-emission invariant: the `endEmitted` flag bounds the number of
`end` events in the trace. -/
def EndInv (s : SockState) : Prop :=
  endCount s ≤ (if s.endEmitted then 1 else 0)

instance (s : SockState) : Decidable (EndInv s) := by
  unfold EndInv; infer_instance

/-! ## `request` end-path error normalization (src/polyfill/http.ts:64-71) -/

/-- A JavaScript value a write promise can reject with, as far as the
`err === undefined` check distinguishes them. -/
inductive JSValue where
  | undef
  | nullv
  | errorv (msg : String)
deriving DecidableEq, Repr

/-- The body of the `.catch` in the `end` closure returned by `request`
(lines 65-70): `if (err === undefined) err = new Error("Readable was
closed");` — the value subsequently emitted as the `error` event. -/
def requestEndOnReject (v : JSValue) : JSValue :=
  if v = JSValue.undef then JSValue.errorv "Readable was closed" else v

/-- The `error` events emitted on the request emitter after the upgrade
request write rejects with `v`. -/
def requestEndRejected (emitted : List JSValue) (v : JSValue) : List JSValue :=
  emitted ++ [requestEndOnReject v]

/-! ## Upgrade response parser (`parseUpgradeResponse`, src/polyfill/http.ts:102-148)

Bytes are `List Nat`; decoded text is `List Char` (code points). The
parser's claims only exercise inputs whose header block is ASCII, where
code-point indices and the UTF-16 indices used by JavaScript coincide. -/

/-- The replacement character U+FFFD. -/
def replChar : Char := Char.ofNat 0xFFFD

/-- Is `b` a UTF-8 continuation byte? -/
def isUtf8Cont (b : Nat) : Bool := decide (0x80 ≤ b) && decide (b < 0xC0)

/-- Allowed second byte after a three-byte lead (rules out overlong forms
and surrogates). -/
def utf8Lead3Ok (b b2 : Nat) : Bool :=
  if b = 0xE0 then decide (0xA0 ≤ b2) && decide (b2 < 0xC0)
  else if b = 0xED then decide (0x80 ≤ b2) && decide (b2 < 0xA0)
  else isUtf8Cont b2

/-- Allowed second byte after a four-byte lead (rules out overlong forms
and code points beyond U+10FFFF). -/
def utf8Lead4Ok (b b2 : Nat) : Bool :=
  if b = 0xF0 then decide (0x90 ≤ b2) && decide (b2 < 0xC0)
  else if b = 0xF4 then decide (0x80 ≤ b2) && decide (b2 < 0x90)
  else isUtf8Cont b2

/-- Model of `new TextDecoder().decode` (UTF-8, replacement on error).
The exact number of replacement characters produced for an invalid
sequence approximates the WHATWG maximal-subpart rule; the parser relies
only on bytes below `0x80` decoding to themselves positionally and on
bytes at or above `0x80` never decoding to an ASCII character, which this
model shares with the platform decoder. -/
def utf8Decode : List Nat → List Char
  | [] => []
  | [b] =>
    if b < 0x80 then [Char.ofNat b] else [replChar]
  | [b, b2] =>
    if b < 0x80 then Char.ofNat b :: utf8Decode [b2]
    else if b < 0xC2 then replChar :: utf8Decode [b2]
    else if b < 0xE0 then
      if isUtf8Cont b2 then [Char.ofNat ((b - 0xC0) * 0x40 + (b2 - 0x80))]
      else replChar :: utf8Decode [b2]
    else replChar :: utf8Decode [b2]
  | [b, b2, b3] =>
    if b < 0x80 then Char.ofNat b :: utf8Decode [b2, b3]
    else if b < 0xC2 then replChar :: utf8Decode [b2, b3]
    else if b < 0xE0 then
      if isUtf8Cont b2 then
        Char.ofNat ((b - 0xC0) * 0x40 + (b2 - 0x80)) :: utf8Decode [b3]
      else replChar :: utf8Decode [b2, b3]
    else if b < 0xF0 then
      if utf8Lead3Ok b b2 && isUtf8Cont b3 then
        [Char.ofNat (((b - 0xE0) * 0x40 + (b2 - 0x80)) * 0x40 + (b3 - 0x80))]
      else replChar :: utf8Decode [b2, b3]
    else replChar :: utf8Decode [b2, b3]
  | b :: b2 :: b3 :: b4 :: t =>
    if b < 0x80 then Char.ofNat b :: utf8Decode (b2 :: b3 :: b4 :: t)
    else if b < 0xC2 then replChar :: utf8Decode (b2 :: b3 :: b4 :: t)
    else if b < 0xE0 then
      if isUtf8Cont b2 then
        Char.ofNat ((b - 0xC0) * 0x40 + (b2 - 0x80)) :: utf8Decode (b3 :: b4 :: t)
      else replChar :: utf8Decode (b2 :: b3 :: b4 :: t)
    else if b < 0xF0 then
      if utf8Lead3Ok b b2 && isUtf8Cont b3 then
        Char.ofNat (((b - 0xE0) * 0x40 + (b2 - 0x80)) * 0x40 + (b3 - 0x80))
          :: utf8Decode (b4 :: t)
      else replChar :: utf8Decode (b2 :: b3 :: b4 :: t)
    else if b < 0xF5 then
      if utf8Lead4Ok b b2 && isUtf8Cont b3 && isUtf8Cont b4 then
        Char.ofNat ((((b - 0xF0) * 0x40 + (b2 - 0x80)) * 0x40 + (b3 - 0x80)) * 0x40
            + (b4 - 0x80)) :: utf8Decode t
      else replChar :: utf8Decode (b2 :: b3 :: b4 :: t)
    else replChar :: utf8Decode (b2 :: b3 :: b4 :: t)

/-- JavaScript `indexOf` over sequences: the first index at which `pat`
occurs, if any. -/
def indexOfSub {α : Type} [DecidableEq α] (pat : List α) : List α → Option Nat
  | [] => if pat.isPrefixOf ([] : List α) then some 0 else none
  | c :: t => if pat.isPrefixOf (c :: t) then some 0 else (indexOfSub pat t).map (· + 1)

/-- The double-CRLF header terminator, as bytes. -/
def crlfcrlfB : List Nat := [13, 10, 13, 10]

/-- The double-CRLF header terminator, as characters. -/
def crlfcrlfC : List Char := ['\r', '\n', '\r', '\n']

/-- JavaScript `split("\r\n")`. -/
def splitOnCRLF : List Char → List (List Char)
  | [] => [[]]
  | [c] => [[c]]
  | c1 :: c2 :: rest =>
    if c1 = '\r' ∧ c2 = '\n' then [] :: splitOnCRLF rest
    else (splitOnCRLF (c2 :: rest)).modifyHead (c1 :: ·)

/-- JavaScript `split(":")`. -/
def splitOnColon : List Char → List (List Char)
  | [] => [[]]
  | c :: rest =>
    if c = ':' then [] :: splitOnColon rest
    else (splitOnColon rest).modifyHead (c :: ·)

/-- JavaScript `Array.prototype.join(":")`. -/
def joinColon : List (List Char) → List Char
  | [] => []
  | [x] => x
  | x :: y :: rest => x ++ ':' :: joinColon (y :: rest)

/-- The whitespace class removed by JavaScript `trim()` (the code points
occurring in practice; `trim` also strips a few rarer Unicode spaces). -/
def isJsWs (c : Char) : Bool :=
  c == ' ' || c == '\t' || c == '\n' || c == '\r'
    || c == Char.ofNat 0x0B || c == Char.ofNat 0x0C
    || c == Char.ofNat 0xA0 || c == Char.ofNat 0xFEFF

/-- JavaScript `trim()`. -/
def trimChars (l : List Char) : List Char :=
  ((l.dropWhile isJsWs).reverse.dropWhile isJsWs).reverse

/-- JavaScript `toLowerCase()`, on the ASCII range the parser exercises. -/
def toLowerChars (l : List Char) : List Char := l.map Char.toLower

/-- Assignment `headers[k] = v` into an insertion-ordered string record:
replace the value at an existing key, else append. -/
def setKey : List (List Char × List Char) → List Char → List Char →
    List (List Char × List Char)
  | [], k, v => [(k, v)]
  | e :: rest, k, v => if e.1 = k then (e.1, v) :: rest else e :: setKey rest k v

/-- Read `headers[k]` back. -/
def lookupKey (m : List (List Char × List Char)) (k : List Char) :
    Option (List Char) :=
  (m.find? fun e => decide (e.1 = k)).map Prod.snd

/-- One iteration of the header loop (lines 131-139): trim the line, skip
it when blank, split at every colon, skip when the part before the first
colon is empty or no colon exists, then store the lower-cased trimmed key
with the re-joined trimmed value. -/
def processHeaderLine (headers : List (List Char × List Char))
    (rawLine : List Char) : List (List Char × List Char) :=
  let line := trimChars rawLine
  if line = [] then headers
  else
    match splitOnColon line with
    | [] => headers
    | key :: valueParts =>
      if key = [] ∨ valueParts = [] then headers
      else setKey headers (toLowerChars (trimChars key)) (trimChars (joinColon valueParts))

/-- The header loop over `lines[1..]` (lines 130-139). -/
def parseHeaders (lines : List (List Char)) : List (List Char × List Char) :=
  lines.foldl processHeaderLine []

/-- `parseInt(digits, 10)` on a non-empty string of decimal digits. -/
def digitsToNat (l : List Char) : Nat :=
  l.foldl (fun a c => a * 10 + (c.toNat - 48)) 0

/-- The success payload of `parseUpgradeResponse`. The `head` field is
always present (`head ?? new Uint8Array()`). -/
structure UpgradeResponse where
  status : Nat
  headers : List (List Char × List Char)
  head : List Nat
deriving DecidableEq, Repr

/-- Result of `parseUpgradeResponse`: a parsed response or an `Error`
carrying the message of the `Error` object the source returns. -/
inductive ParseResult where
  | error (msg : String)
  | ok (r : UpgradeResponse)
deriving DecidableEq, Repr

/-- The anchored prefix of the status-line pattern `^HTTP\/1\.1 (\d+)`. -/
def statusPrefix : List Char := "HTTP/1.1 ".toList

/-- `parseUpgradeResponse` (lines 102-148). `headEnd` is the index of the
first double-CRLF in the decoded text; as in the source it is also used as
a byte offset when slicing off `head`. -/
def parseUpgradeResponse (data : List Nat) : ParseResult :=
  let text := utf8Decode data
  match indexOfSub crlfcrlfC text with
  | none => ParseResult.error "Invalid HTTP response - no header terminator found"
  | some headEnd =>
    let headerText := text.take headEnd
    let lines := splitOnCRLF headerText
    let statusLine := lines.headD []
    if statusPrefix.isPrefixOf statusLine then
      let digits := (statusLine.drop 9).takeWhile Char.isDigit
      if digits = [] then ParseResult.error "Status line didn't match"
      else
        let headers := parseHeaders (lines.drop 1)
        let head := if headEnd + 4 < data.length then data.drop (headEnd + 4) else []
        ParseResult.ok { status := digitsToNat digits, headers := headers, head := head }
    else ParseResult.error "Status line didn't match"

/-- A sample first chunk: an ASCII 101 upgrade response followed by two
binary frame bytes. -/
def sampleUpgradeBytes : List Nat :=
  ("HTTP/1.1 101 Switching Protocols\r\nUpgrade: websocket\r\n\r\n".toList.map
    Char.toNat) ++ [222, 173]

/-- Spec-side reading of one header line, written after the spec's words:
"split at the first colon; trim key and value; lower-case the key" (blank
lines are skipped). Used to compare the implementation's split-everywhere-
and-rejoin loop against the spec. -/
def specHeaderEntry (rawLine : List Char) : Option (List Char × List Char) :=
  let line := trimChars rawLine
  if line = [] then none
  else
    let key := line.takeWhile fun c => decide (c ≠ ':')
    some (toLowerChars (trimChars key), trimChars (line.drop (key.length + 1)))

/-- A header line the spec's step 3 is defined on: when not blank after
trimming, it contains a colon and has a non-empty segment before the first
colon. -/
def WellFormedHeaderLine (rawLine : List Char) : Prop :=
  trimChars rawLine ≠ [] →
    (':' ∈ trimChars rawLine
      ∧ (trimChars rawLine).takeWhile (fun c => decide (c ≠ ':')) ≠ [])

instance (rawLine : List Char) : Decidable (WellFormedHeaderLine rawLine) := by
  unfold WellFormedHeaderLine
  infer_instance

/-! ## Parser lemmas -/

theorem indexOfSub_eq_some_iff {α : Type} [DecidableEq α] (pat l : List α) (i : Nat) :
    indexOfSub pat l = some i
      ↔ (pat <+: l.drop i ∧ ∀ j, j < i → ¬ pat <+: l.drop j) := by
  induction l generalizing i with
  | nil =>
    simp only [indexOfSub, List.drop_nil]
    by_cases h : pat <+: ([] : List α)
    · rw [← List.isPrefixOf_iff_prefix] at h
      rw [if_pos h]
      rw [List.isPrefixOf_iff_prefix] at h
      constructor
      · rintro h0
        injection h0 with h0
        subst h0
        exact ⟨h, by omega⟩
      · rintro ⟨-, hall⟩
        rcases Nat.eq_zero_or_pos i with hi | hi
        · rw [hi]
        · exact absurd h (hall 0 hi)
    · rw [← List.isPrefixOf_iff_prefix] at h
      rw [if_neg h]
      rw [List.isPrefixOf_iff_prefix] at h
      simp [h]
  | cons a t ih =>
    simp only [indexOfSub]
    by_cases h : pat <+: a :: t
    · rw [← List.isPrefixOf_iff_prefix] at h
      rw [if_pos h]
      rw [List.isPrefixOf_iff_prefix] at h
      constructor
      · rintro h0
        injection h0 with h0
        subst h0
        exact ⟨h, by omega⟩
      · rintro ⟨-, hall⟩
        rcases Nat.eq_zero_or_pos i with hi | hi
        · rw [hi]
        · exact absurd (by simpa using h) (hall 0 hi)
    · rw [← List.isPrefixOf_iff_prefix] at h
      rw [if_neg h]
      rw [List.isPrefixOf_iff_prefix] at h
      cases i with
      | zero => simpa using h
      | succ n =>
        rw [show (a :: t).drop (n + 1) = t.drop n from rfl]
        simp only [Option.map_eq_some']
        constructor
        · rintro ⟨m, hm, hmn⟩
          have hmn' : m = n := by omega
          subst hmn'
          obtain ⟨hp, hmin⟩ := (ih m).mp hm
          refine ⟨hp, fun j hj => ?_⟩
          cases j with
          | zero => simpa using h
          | succ j' => exact hmin j' (by omega)
        · rintro ⟨hp, hall⟩
          exact ⟨n, (ih n).mpr ⟨hp, fun j hj => hall (j + 1) (by omega)⟩, rfl⟩

theorem indexOfSub_eq_none_iff {α : Type} [DecidableEq α] (pat l : List α) :
    indexOfSub pat l = none ↔ ∀ j, ¬ pat <+: l.drop j := by
  induction l with
  | nil =>
    simp only [indexOfSub, List.drop_nil]
    by_cases h : pat <+: ([] : List α)
    · rw [← List.isPrefixOf_iff_prefix] at h
      rw [if_pos h]
      rw [List.isPrefixOf_iff_prefix] at h
      simp [h]
    · rw [← List.isPrefixOf_iff_prefix] at h
      rw [if_neg h]
      rw [List.isPrefixOf_iff_prefix] at h
      simp [h]
  | cons a t ih =>
    simp only [indexOfSub]
    by_cases h : pat <+: a :: t
    · rw [← List.isPrefixOf_iff_prefix] at h
      rw [if_pos h]
      rw [List.isPrefixOf_iff_prefix] at h
      constructor
      · intro h0
        exact absurd h0 (Option.some_ne_none 0)
      · intro hall
        exact absurd (by simpa using h) (hall 0)
    · rw [← List.isPrefixOf_iff_prefix] at h
      rw [if_neg h]
      rw [List.isPrefixOf_iff_prefix] at h
      rw [Option.map_eq_none', ih]
      constructor
      · intro hall j
        cases j with
        | zero => simpa using h
        | succ n => exact hall n
      · intro hall j
        exact hall (j + 1)

theorem occurrence_iff_exists_drop {α : Type} (pat l : List α) :
    (∃ j, pat <+: l.drop j) ↔ pat <:+: l := by
  constructor
  · rintro ⟨j, t, ht⟩
    refine ⟨l.take j, t, ?_⟩
    rw [List.append_assoc, ht, List.take_append_drop]
  · rintro ⟨s, t, rfl⟩
    refine ⟨s.length, ?_⟩
    rw [List.append_assoc, List.drop_append_eq_append_drop, List.drop_length,
      Nat.sub_self, List.drop_zero, List.nil_append]
    exact List.prefix_append pat t

theorem utf8Decode_cons_ascii (b : Nat) (t : List Nat) (h : b < 0x80) :
    utf8Decode (b :: t) = Char.ofNat b :: utf8Decode t := by
  match t with
  | [] => simp [utf8Decode, h]
  | [b2] => simp [utf8Decode, h]
  | [b2, b3] => simp [utf8Decode, h]
  | b2 :: b3 :: b4 :: t' => simp [utf8Decode, h]

theorem utf8Decode_append_ascii (p q : List Nat) (h : ∀ b ∈ p, b < 0x80) :
    utf8Decode (p ++ q) = p.map Char.ofNat ++ utf8Decode q := by
  induction p with
  | nil => simp
  | cons b p' ih =>
    rw [List.cons_append, utf8Decode_cons_ascii b _ (h b (List.mem_cons_self b p')),
      ih fun x hx => h x (List.mem_cons_of_mem b hx)]
    simp

theorem ascii_char_inv : ∀ b, b < 128 →
    ((Char.ofNat b = '\r' → b = 13) ∧ (Char.ofNat b = '\n' → b = 10)) := by decide

/-- If the double CRLF first occurs at byte index `i` and every byte
before it is ASCII, then it first occurs at character index `i` of the
decoded text as well: the index the parser computes is a valid byte
offset. -/
theorem decode_index_of_byte_index (data : List Nat) (i : Nat)
    (hidx : indexOfSub crlfcrlfB data = some i)
    (hascii : ∀ b ∈ data.take i, b < 0x80) :
    indexOfSub crlfcrlfC (utf8Decode data) = some i := by
  obtain ⟨hp, hmin⟩ := (indexOfSub_eq_some_iff _ _ _).mp hidx
  obtain ⟨tl, htl⟩ := hp
  have hil : i < data.length := by
    by_contra hc
    push_neg at hc
    rw [List.drop_eq_nil_iff.mpr hc] at htl
    simp [crlfcrlfB] at htl
  have hlenA : (data.take i).length = i := by
    rw [List.length_take]
    omega
  have hdata : data = data.take i ++ (crlfcrlfB ++ tl) := by
    rw [htl, List.take_append_drop]
  have hdec : utf8Decode data
      = (data.take i).map Char.ofNat ++ (crlfcrlfC ++ utf8Decode tl) := by
    conv_lhs => rw [hdata]
    rw [utf8Decode_append_ascii _ _ hascii]
    congr 1
    show utf8Decode (13 :: 10 :: 13 :: 10 :: tl) = _
    rw [utf8Decode_cons_ascii _ _ (by norm_num), utf8Decode_cons_ascii _ _ (by norm_num),
      utf8Decode_cons_ascii _ _ (by norm_num), utf8Decode_cons_ascii _ _ (by norm_num)]
    have h13 : Char.ofNat 13 = '\r' := by decide
    have h10 : Char.ofNat 10 = '\n' := by decide
    rw [h13, h10]
    rfl
  rw [indexOfSub_eq_some_iff]
  constructor
  · rw [hdec, List.drop_append_eq_append_drop]
    have h0 : ((data.take i).map Char.ofNat).length = i := by
      rw [List.length_map, hlenA]
    rw [h0, List.drop_of_length_le (le_of_eq h0), Nat.sub_self, List.drop_zero,
      List.nil_append]
    exact List.prefix_append crlfcrlfC (utf8Decode tl)
  · intro j hj hpj
    have htj : (utf8Decode data).drop j
        = ((data.take i).drop j).map Char.ofNat ++ (crlfcrlfC ++ utf8Decode tl) := by
      rw [hdec, List.drop_append_eq_append_drop]
      have h0 : j - ((data.take i).map Char.ofNat).length = 0 := by
        rw [List.length_map, hlenA]
        omega
      rw [h0, List.drop_zero, List.map_drop]
    have hbj : data.drop j = ((data.take i).drop j) ++ (crlfcrlfB ++ tl) := by
      conv_lhs => rw [hdata]
      rw [List.drop_append_eq_append_drop]
      have h0 : j - (data.take i).length = 0 := by
        rw [hlenA]
        omega
      rw [h0, List.drop_zero]
    have hlenDj : ((data.take i).drop j).length = i - j := by
      rw [List.length_drop, hlenA]
    have hasciiDj : ∀ b ∈ (data.take i).drop j, b < 0x80 :=
      fun b hb => hascii b (List.mem_of_mem_drop hb)
    have heq := List.prefix_iff_eq_take.mp hpj
    rw [htj, List.take_append_eq_append_take] at heq
    rcases hDcase : (data.take i).drop j with _ | ⟨x1, _ | ⟨x2, _ | ⟨x3, _ | ⟨x4, D⟩⟩⟩⟩
    · rw [hDcase] at hlenDj
      simp at hlenDj
      omega
    · rw [hDcase] at heq
      simp [crlfcrlfC] at heq
    · rw [hDcase] at heq hbj hasciiDj
      simp [crlfcrlfC] at heq
      obtain ⟨h1, h2⟩ := heq
      have hx1 : x1 = 13 :=
        (ascii_char_inv x1 (hasciiDj x1 (by simp))).1 h1.symm
      have hx2 : x2 = 10 :=
        (ascii_char_inv x2 (hasciiDj x2 (by simp))).2 h2.symm
      refine hmin j hj ⟨13 :: 10 :: tl, ?_⟩
      rw [hbj, hx1, hx2]
      simp [crlfcrlfB]
    · rw [hDcase] at heq
      simp [crlfcrlfC] at heq
    · rw [hDcase] at heq hbj hasciiDj
      simp [crlfcrlfC] at heq
      obtain ⟨h1, h2, h3, h4⟩ := heq
      have hx1 : x1 = 13 :=
        (ascii_char_inv x1 (hasciiDj x1 (by simp))).1 h1.symm
      have hx2 : x2 = 10 :=
        (ascii_char_inv x2 (hasciiDj x2 (by simp))).2 h2.symm
      have hx3 : x3 = 13 :=
        (ascii_char_inv x3 (hasciiDj x3 (by simp))).1 h3.symm
      have hx4 : x4 = 10 :=
        (ascii_char_inv x4 (hasciiDj x4 (by simp))).2 h4.symm
      refine hmin j hj ⟨D ++ (crlfcrlfB ++ tl), ?_⟩
      rw [hbj, hx1, hx2, hx3, hx4]
      simp [crlfcrlfB]

/-- C6: for an input chunk whose header block (the bytes before the first
double-CRLF) is ASCII, whenever the parser succeeds, the returned `head`
is exactly the bytes of the input following the first double-CRLF — and
when nothing follows the terminator it is the empty byte sequence (the
`head` field of `UpgradeResponse` is always present, never absent). -/
theorem parse_head_is_bytes_after_terminator (data : List Nat) (i : Nat)
    (r : UpgradeResponse)
    (hidx : indexOfSub crlfcrlfB data = some i)
    (hascii : ∀ b ∈ data.take i, b < 0x80)
    (hok : parseUpgradeResponse data = ParseResult.ok r) :
    r.head = data.drop (i + 4) := by
  have hchar := decode_index_of_byte_index data i hidx hascii
  simp only [parseUpgradeResponse] at hok
  rw [hchar] at hok
  dsimp only at hok
  split at hok
  · split at hok
    · exact ParseResult.noConfusion hok
    · injection hok with h
      subst h
      show (if i + 4 < data.length then data.drop (i + 4) else []) = data.drop (i + 4)
      split
      · rfl
      · next hge =>
        exact (List.drop_eq_nil_iff.mpr (by omega)).symm
  · exact ParseResult.noConfusion hok

theorem parse_head_is_bytes_after_terminator_witness :
    indexOfSub crlfcrlfB sampleUpgradeBytes = some 52
    ∧ (∀ b ∈ sampleUpgradeBytes.take 52, b < 0x80)
    ∧ parseUpgradeResponse sampleUpgradeBytes
        = ParseResult.ok
            { status := 101
              headers := [("upgrade".toList, "websocket".toList)]
              head := [222, 173] }
    ∧ ({ status := 101
         headers := [("upgrade".toList, "websocket".toList)]
         head := [222, 173] } : UpgradeResponse).head
        = sampleUpgradeBytes.drop (52 + 4) :=
  ⟨by decide, by decide, by decide,
    parse_head_is_bytes_after_terminator sampleUpgradeBytes 52 _ (by decide) (by decide)
      (by decide)⟩

/-- C8: when the decoded text of the input bytes contains no double-CRLF
substring, the parser fails with the no-header-terminator `Error` and
produces no parsed response. -/
theorem no_terminator_parse_error (data : List Nat)
    (h : ¬ crlfcrlfC <:+: utf8Decode data) :
    parseUpgradeResponse data
      = ParseResult.error "Invalid HTTP response - no header terminator found" := by
  have hidx : indexOfSub crlfcrlfC (utf8Decode data) = none := by
    rw [indexOfSub_eq_none_iff]
    intro j hp
    exact h ((occurrence_iff_exists_drop _ _).mp ⟨j, hp⟩)
  simp [parseUpgradeResponse, hidx]

theorem no_terminator_parse_error_witness :
    ¬ crlfcrlfC <:+: utf8Decode ("HTTP/1.1 200 OK".toList.map Char.toNat)
    ∧ parseUpgradeResponse ("HTTP/1.1 200 OK".toList.map Char.toNat)
        = ParseResult.error "Invalid HTTP response - no header terminator found" :=
  ⟨by decide, no_terminator_parse_error _ (by decide)⟩

/-! ### Header-line lemmas (for C7) -/

theorem splitOnColon_ne_nil (l : List Char) : splitOnColon l ≠ [] := by
  induction l with
  | nil => simp [splitOnColon]
  | cons c rest ih =>
    by_cases h : c = ':'
    · simp [splitOnColon, h]
    · simp only [splitOnColon, if_neg h]
      cases hsp : splitOnColon rest with
      | nil => exact absurd hsp ih
      | cons a as => simp [List.modifyHead]

theorem joinColon_splitOnColon (l : List Char) : joinColon (splitOnColon l) = l := by
  induction l with
  | nil => rfl
  | cons c rest ih =>
    by_cases h : c = ':'
    · subst h
      simp only [splitOnColon, if_pos rfl]
      cases hsp : splitOnColon rest with
      | nil => exact absurd hsp (splitOnColon_ne_nil rest)
      | cons a as =>
        rw [hsp] at ih
        simpa [joinColon] using ih
    · simp only [splitOnColon, if_neg h]
      cases hsp : splitOnColon rest with
      | nil => exact absurd hsp (splitOnColon_ne_nil rest)
      | cons a as =>
        rw [hsp] at ih
        cases as with
        | nil =>
          simp only [joinColon] at ih ⊢
          simp [List.modifyHead, joinColon, ih]
        | cons b bs =>
          simp only [joinColon] at ih ⊢
          simp [List.modifyHead, joinColon, ih]

theorem splitOnColon_headD (l : List Char) :
    (splitOnColon l).headD [] = l.takeWhile fun c => decide (c ≠ ':') := by
  induction l with
  | nil => rfl
  | cons c rest ih =>
    by_cases h : c = ':'
    · subst h
      simp [splitOnColon, List.takeWhile_cons]
    · simp only [splitOnColon, if_neg h]
      cases hsp : splitOnColon rest with
      | nil => exact absurd hsp (splitOnColon_ne_nil rest)
      | cons a as =>
        rw [hsp] at ih
        simp only [List.headD] at ih
        simp [List.modifyHead, List.takeWhile_cons, h, ih]

theorem splitOnColon_tail_join (l key : List Char) (vps : List (List Char))
    (h : splitOnColon l = key :: vps) (hne : vps ≠ []) :
    l = key ++ ':' :: joinColon vps := by
  have hj := joinColon_splitOnColon l
  rw [h] at hj
  cases vps with
  | nil => exact absurd rfl hne
  | cons v vs =>
    rw [← hj]
    simp [joinColon]

theorem lookupKey_setKey (m : List (List Char × List Char)) (k0 v0 k : List Char) :
    lookupKey (setKey m k0 v0) k = if k = k0 then some v0 else lookupKey m k := by
  induction m with
  | nil =>
    by_cases h : k = k0
    · subst h
      simp [setKey, lookupKey]
    · have h' : k0 ≠ k := fun hh => h hh.symm
      simp [setKey, lookupKey, h, h']
  | cons e rest ih =>
    by_cases he : e.1 = k0
    · simp only [setKey, if_pos he]
      by_cases h : k = k0
      · subst h
        simp [lookupKey, List.find?_cons, he]
      · have h1 : e.1 ≠ k := by
          rw [he]
          exact fun hh => h hh.symm
        simp [lookupKey, List.find?_cons, h1, h]
    · simp only [setKey, if_neg he]
      by_cases h1 : e.1 = k
      · have h2 : k ≠ k0 := fun hk => he (h1.trans hk)
        simp [lookupKey, List.find?_cons, h1, h2]
      · simpa [lookupKey, List.find?_cons, h1] using ih

theorem processHeaderLine_of_blank (m : List (List Char × List Char))
    (l : List Char) (h : trimChars l = []) : processHeaderLine m l = m := by
  simp [processHeaderLine, h]

theorem processHeaderLine_eq_setKey (m : List (List Char × List Char))
    (l : List Char) (hwf : WellFormedHeaderLine l) (hnb : trimChars l ≠ [])
    (k0 v0 : List Char) (hE : specHeaderEntry l = some (k0, v0)) :
    processHeaderLine m l = setKey m k0 v0 := by
  obtain ⟨hcolon, hkey⟩ := hwf hnb
  cases hsp : splitOnColon (trimChars l) with
  | nil => exact absurd hsp (splitOnColon_ne_nil _)
  | cons key vps =>
    have hkeyeq : key = (trimChars l).takeWhile fun c => decide (c ≠ ':') := by
      have hh := splitOnColon_headD (trimChars l)
      rw [hsp] at hh
      simpa using hh
    have hvps : vps ≠ [] := by
      intro hv
      subst hv
      have hj := joinColon_splitOnColon (trimChars l)
      rw [hsp] at hj
      have hkl : key = trimChars l := hj
      have hmem : ':' ∈ (trimChars l).takeWhile fun c => decide (c ≠ ':') := by
        rw [← hkeyeq, hkl]
        exact hcolon
      have := List.mem_takeWhile_imp hmem
      simp at this
    have hkeynn : key ≠ [] := by
      rw [hkeyeq]
      exact hkey
    have hjoin : joinColon vps = (trimChars l).drop (key.length + 1) := by
      have hl := splitOnColon_tail_join (trimChars l) key vps hsp hvps
      rw [hl, List.drop_append_eq_append_drop]
      simp
    simp only [specHeaderEntry] at hE
    rw [if_neg hnb] at hE
    injection hE with hE
    injection hE with hEk hEv
    simp only [processHeaderLine]
    rw [if_neg hnb, hsp]
    dsimp only
    rw [if_neg (by simp [hkeynn, hvps])]
    rw [hjoin, hkeyeq, hEk, hEv]

theorem parseHeaders_lookup_aux (ls : List (List Char))
    (m : List (List Char × List Char))
    (hwf : ∀ l ∈ ls, WellFormedHeaderLine l) (k : List Char) :
    lookupKey (ls.foldl processHeaderLine m) k
      = (((ls.filterMap specHeaderEntry).reverse.find? fun e => decide (e.1 = k)).map
          Prod.snd).or (lookupKey m k) := by
  induction ls generalizing m with
  | nil => simp
  | cons l ls ih =>
    rw [List.foldl_cons, List.filterMap_cons]
    have hwl : WellFormedHeaderLine l := hwf l (List.mem_cons_self l ls)
    have hwls : ∀ x ∈ ls, WellFormedHeaderLine x :=
      fun x hx => hwf x (List.mem_cons_of_mem l hx)
    by_cases hb : trimChars l = []
    · have hE : specHeaderEntry l = none := by simp [specHeaderEntry, hb]
      rw [hE, processHeaderLine_of_blank m l hb]
      exact ih m hwls
    · have hE : ∃ e, specHeaderEntry l = some e := by
        simp [specHeaderEntry, hb]
      obtain ⟨⟨k0, v0⟩, hE⟩ := hE
      rw [hE, processHeaderLine_eq_setKey m l hwl hb k0 v0 hE]
      rw [ih _ hwls, lookupKey_setKey]
      rw [List.reverse_cons, List.find?_append]
      have hmapor : ∀ (X Y : Option (List Char × List Char)),
          Option.map Prod.snd (X.or Y) = (Option.map Prod.snd X).or (Option.map Prod.snd Y) := by
        intro X Y
        cases X <;> rfl
      rw [hmapor, Option.or_assoc]
      congr 1
      by_cases hk : k = k0
      · subst hk
        simp [List.find?_cons]
      · have hk' : k0 ≠ k := fun hh => hk hh.symm
        simp [List.find?_cons, hk, hk']

/-- C7: the headers map returned by the parser's header loop agrees, at
every key, with the spec's reading of the lines — split at the first
colon, trim key and value, lower-case the key — with the value of the last
occurrence of a duplicate key retained (`find?` over the reversed list of
spec entries). -/
theorem header_lines_last_wins (lines : List (List Char))
    (hwf : ∀ l ∈ lines, WellFormedHeaderLine l) (k : List Char) :
    lookupKey (parseHeaders lines) k
      = ((lines.filterMap specHeaderEntry).reverse.find? fun e =>
          decide (e.1 = k)).map Prod.snd := by
  have h := parseHeaders_lookup_aux lines [] hwf k
  simpa [lookupKey, parseHeaders] using h

theorem header_lines_last_wins_witness :
    (∀ l ∈ ["Upgrade: websocket".toList, "   ".toList, "UPGRADE:  ws2 ".toList],
      WellFormedHeaderLine l)
    ∧ lookupKey
        (parseHeaders
          ["Upgrade: websocket".toList, "   ".toList, "UPGRADE:  ws2 ".toList])
        "upgrade".toList
      = (((["Upgrade: websocket".toList, "   ".toList,
            "UPGRADE:  ws2 ".toList].filterMap specHeaderEntry).reverse.find? fun e =>
          decide (e.1 = "upgrade".toList)).map Prod.snd) :=
  ⟨by decide, header_lines_last_wins _ (by decide) _⟩

/-! ## Lifecycle lemmas -/

theorem destroy_of_readableDestroyed (e : Bool) (s : SockState)
    (h : s.readableDestroyed = true) : destroy e s = s := by
  simp [destroy, h]

theorem destroy_readableDestroyed (e : Bool) (s : SockState) :
    (destroy e s).readableDestroyed = true := by
  by_cases h : s.readableDestroyed
  · simp [destroy, h]
  · by_cases hc : s.closed <;> cases e <;> simp [destroy, h, hc, emit]

theorem pumpDone_readableDestroyed (s : SockState) :
    (pumpDone s).readableDestroyed = true := by
  by_cases hc : s.closed <;> simp [pumpDone, hc]

/-- C1: `destroy()` is idempotent: a second `destroy` call (with or without
an error) on an already-destroyed socket is a no-op; from a fresh socket,
two `destroy` calls yield exactly one `close` event, and exactly one
`error` event when (and only when) the first call carried an error. -/
theorem destroy_second_call_noop (s : SockState) (e1 e2 : Bool) :
    destroy e2 (destroy e1 s) = destroy e1 s
    ∧ destroy e2 (drain (destroy e1 initSock)) = drain (destroy e1 initSock)
    ∧ closeCount (drain (destroy e2 (destroy e1 initSock))) = 1
    ∧ errorCount (drain (destroy e2 (destroy e1 initSock))) = (if e1 then 1 else 0) := by
  refine ⟨destroy_of_readableDestroyed e2 _ (destroy_readableDestroyed e1 s), ?_, ?_, ?_⟩
  · cases e1 <;> cases e2 <;> decide
  · cases e1 <;> cases e2 <;> decide
  · cases e1 <;> cases e2 <;> decide

/-- C10: once the background read pump has observed end-of-stream
(`pumpDone`, which sets the readable destroyed flag), a later
`destroy(error)` is a complete no-op: the state is unchanged, the error
argument is dropped (no `error` event), no extra `close` event appears,
and the writable destroyed flag stays unset. -/
theorem destroy_after_pump_done_noop (s : SockState) (e : Bool) :
    destroy e (pumpDone s) = pumpDone s
    ∧ (pumpDone initSock).writableDestroyed = false
    ∧ errorCount (drain (destroy e (pumpDone initSock))) = 0
    ∧ closeCount (drain (destroy e (pumpDone initSock))) = 1 := by
  refine ⟨destroy_of_readableDestroyed e _ (pumpDone_readableDestroyed s), ?_, ?_, ?_⟩
  · decide
  · cases e <;> decide
  · cases e <;> decide

/-- C4 (amended): `end()` is a no-op exactly when the `finished` flag is
already set — which happens synchronously for `end()` without data, but
only upon write completion for `end(data)`. -/
theorem end_noop_when_finished (s : SockState) (d : Option (List Nat))
    (cb : Option Nat) (h : s.finished = true) : endCall d cb s = s := by
  simp [endCall, h]

theorem end_noop_when_finished_witness :
    (endCall none none initSock).finished = true
    ∧ endCall (some [1]) none (endCall none none initSock) = endCall none none initSock :=
  ⟨by decide, end_noop_when_finished _ _ _ (by decide)⟩

/-- C4 (counterexample): a second `end()` issued while the data write of a
first `end(data)` is still pending is not a no-op — it closes the
underlying writer (and schedules `finish`/`end`). -/
theorem end_second_call_counterexample :
    (endCall (some [7]) none initSock).writerCloses = 0
    ∧ (endCall none none (endCall (some [7]) none initSock)).writerCloses = 1
    ∧ endCall none none (endCall (some [7]) none initSock)
        ≠ endCall (some [7]) none initSock := by
  decide

/-- C2 (counterexample): when the writer close started by a graceful
`end()` rejects with a truthy error value, the adapter emits an `error`
event — the close failure is not ignored. -/
theorem end_close_rejection_counterexample :
    errorCount (settleClose 0 CloseOutcome.rejectedTruthy (endCall none none initSock)) = 1 := by
  decide

/-- C2 (amended): a graceful `end()` closes the underlying writer exactly
once, with the `if (err)` catch handler attached: a close rejection with a
falsy value (and a fulfilled close) has no observable effect, while a
rejection with a truthy error value emits exactly one `error` event. -/
theorem end_close_rejection_behavior (s : SockState) (cb : Option Nat)
    (h : s.finished = false) (hc : s.pendingCloses = []) :
    (endCall none cb s).writerCloses = s.writerCloses + 1
    ∧ (endCall none cb s).pendingCloses = [CloseCb.emitIfTruthy]
    ∧ settleClose 0 CloseOutcome.rejectedFalsy (endCall none cb s)
        = { endCall none cb s with pendingCloses := [] }
    ∧ settleClose 0 CloseOutcome.fulfilled (endCall none cb s)
        = { endCall none cb s with pendingCloses := [] }
    ∧ (settleClose 0 CloseOutcome.rejectedTruthy (endCall none cb s)).events
        = (endCall none cb s).events ++ [Ev.error] := by
  cases cb <;>
    simp [endCall, writeAndFinish, settleClose, emit, h, hc]

/-! ### The `end`-once invariant (for C3) -/

theorem endCount_emit (s : SockState) (e : Ev) :
    endCount (emit s e) = endCount s + (if isEndEv e then 1 else 0) := by
  simp [endCount, emit, List.countP_append, List.countP_cons]

theorem EndInv_of (t s : SockState) (h1 : endCount t = endCount s)
    (h2 : t.endEmitted = s.endEmitted) (h : EndInv s) : EndInv t := by
  unfold EndInv at *
  rw [h1, h2]
  exact h

theorem EndInv_emit (s : SockState) (e : Ev) (he : isEndEv e = false)
    (h : EndInv s) : EndInv (emit s e) := by
  refine EndInv_of _ s ?_ rfl h
  simp [endCount_emit, he]

theorem writeAndFinish_events (u : Option Nat) (s : SockState) :
    (writeAndFinish u s).events = s.events := by
  cases u <;> rfl

theorem writeAndFinish_endEmitted (u : Option Nat) (s : SockState) :
    (writeAndFinish u s).endEmitted = s.endEmitted := by
  cases u <;> rfl

theorem EndInv_writeAndFinish (u : Option Nat) (s : SockState)
    (h : EndInv s) : EndInv (writeAndFinish u s) := by
  refine EndInv_of _ s ?_ (writeAndFinish_endEmitted u s) h
  simp [endCount, writeAndFinish_events]

theorem EndInv_destroy (e : Bool) (s : SockState) (h : EndInv s) :
    EndInv (destroy e s) := by
  by_cases hr : s.readableDestroyed
  · simpa [destroy, hr] using h
  · refine EndInv_of _ s ?_ ?_ h <;>
      by_cases hc : s.closed <;> cases e <;>
        simp [destroy, hr, hc, emit, endCount, List.countP_append, List.countP_cons, isEndEv]

theorem EndInv_write (d : List Nat) (cb : Option WriteCb) (s : SockState)
    (h : EndInv s) : EndInv (write d cb s) := by
  refine EndInv_of _ s ?_ ?_ h <;>
    by_cases hc : s.corked <;> simp [write, doWrite, hc, endCount]

theorem EndInv_endCall (d : Option (List Nat)) (cb : Option Nat) (s : SockState)
    (h : EndInv s) : EndInv (endCall d cb s) := by
  by_cases hf : s.finished
  · simpa [endCall, hf] using h
  · cases d with
    | none => simpa [endCall, hf] using EndInv_writeAndFinish cb s h
    | some bytes => simpa [endCall, hf] using EndInv_write bytes _ s h

theorem EndInv_uncork (s : SockState) (h : EndInv s) : EndInv (uncork s) := by
  refine EndInv_of _ s ?_ ?_ h <;>
    by_cases hq : s.corkedQueue = [] <;> simp [uncork, doWrite, hq, endCount]

theorem EndInv_runWriteCb (cb : Option WriteCb) (r : Bool) (s : SockState)
    (h : EndInv s) : EndInv (runWriteCb cb r s) := by
  match cb with
  | none =>
    cases r
    · simpa [runWriteCb] using h
    · exact EndInv_emit s Ev.error rfl h
  | some (WriteCb.user i) => exact EndInv_emit s (Ev.cb i r) rfl h
  | some (WriteCb.finisher u) => exact EndInv_writeAndFinish u s h

theorem EndInv_settleWrite (i : Nat) (r : Bool) (s : SockState)
    (h : EndInv s) : EndInv (settleWrite i r s) := by
  unfold settleWrite
  match hg : s.pendingWrites.get? i with
  | none => exact h
  | some cb =>
    refine EndInv_runWriteCb cb r _ (EndInv_of _ s ?_ rfl h)
    simp [endCount]

theorem EndInv_settleClose (i : Nat) (o : CloseOutcome) (s : SockState)
    (h : EndInv s) : EndInv (settleClose i o s) := by
  unfold settleClose
  match hg : s.pendingCloses.get? i with
  | none => exact h
  | some hc =>
    have hbase : EndInv { s with pendingCloses := s.pendingCloses.eraseIdx i } :=
      EndInv_of _ s (by simp [endCount]) rfl h
    match hc, o with
    | CloseCb.emitIfTruthy, CloseOutcome.rejectedTruthy => exact EndInv_emit _ Ev.error rfl hbase
    | CloseCb.emitIfTruthy, CloseOutcome.fulfilled => exact hbase
    | CloseCb.emitIfTruthy, CloseOutcome.rejectedFalsy => exact hbase
    | CloseCb.swallow, CloseOutcome.fulfilled => exact hbase
    | CloseCb.swallow, CloseOutcome.rejectedTruthy => exact hbase
    | CloseCb.swallow, CloseOutcome.rejectedFalsy => exact hbase

theorem EndInv_runTask (t : Task) (s : SockState) (h : EndInv s) :
    EndInv (runTask s t) := by
  match t with
  | Task.emitClose arg => exact EndInv_emit s (Ev.close arg) rfl h
  | Task.userCb i => exact EndInv_emit s (Ev.cb i false) rfl h
  | Task.finishEnd =>
    unfold runTask
    have hfin : EndInv (emit s Ev.finish) := EndInv_emit s Ev.finish rfl h
    by_cases he : (emit s Ev.finish).endEmitted
    · simpa [he] using hfin
    · have h0 : endCount (emit s Ev.finish) = 0 := by
        have h1 := hfin
        unfold EndInv at h1
        rw [Bool.not_eq_true] at he
        rw [he] at h1
        simpa using h1
      simp only [he, if_false, Bool.false_eq_true]
      unfold EndInv
      rw [endCount_emit]
      have h1 : endCount { emit s Ev.finish with endEmitted := true }
          = endCount (emit s Ev.finish) := rfl
      rw [h1, h0]
      simp [isEndEv, emit]

theorem EndInv_runMicrotask (s : SockState) (h : EndInv s) :
    EndInv (runMicrotask s) := by
  unfold runMicrotask
  match hm : s.microtasks with
  | [] => exact h
  | t :: ts =>
    refine EndInv_runTask t _ (EndInv_of _ s ?_ rfl h)
    simp [endCount]

theorem EndInv_pumpDone (s : SockState) (h : EndInv s) : EndInv (pumpDone s) := by
  refine EndInv_of _ s ?_ ?_ h <;>
    by_cases hc : s.closed <;> simp [pumpDone, hc, endCount]

/-- Every step of the system preserves the `end`-once invariant. -/
theorem EndInv_step (a : Act) (s : SockState) (h : EndInv s) : EndInv (step a s) := by
  match a with
  | Act.destroyA e => exact EndInv_destroy e s h
  | Act.endA d cb => exact EndInv_endCall d cb s h
  | Act.writeA d cb => exact EndInv_write d cb s h
  | Act.corkA => exact EndInv_of _ s rfl rfl h
  | Act.uncorkA => exact EndInv_uncork s h
  | Act.micro => exact EndInv_runMicrotask s h
  | Act.settleW i r => exact EndInv_settleWrite i r s h
  | Act.settleC i o => exact EndInv_settleClose i o s h
  | Act.pumpDataA b => exact EndInv_emit s (Ev.dataEv b) rfl h
  | Act.pumpDoneA => exact EndInv_pumpDone s h
  | Act.pumpErrorA =>
    show EndInv (pumpError s)
    by_cases hr : s.readableDestroyed
    · simpa [pumpError, hr] using h
    · simpa [pumpError, hr] using EndInv_destroy true s h

/-- C3: a graceful `end()` (no data) on an adapter whose `end` event has
not yet been emitted appends, once the microtask queue drains, the user
callback (if any) and then `finish` followed immediately by `end` to the
event trace — `finish` strictly before `end` — and marks `endEmitted`;
moreover every step of the system preserves the invariant bounding the
number of `end` events by the `endEmitted` flag, so `end` is never emitted
a second time, even by a concurrently completing read side. -/
theorem end_emits_finish_then_end (s s' : SockState) (cb : Option Nat) (a : Act)
    (h1 : s.finished = false) (h2 : s.endEmitted = false) (h3 : s.microtasks = [])
    (hInv : EndInv s') :
    (drain (endCall none cb s)).events
      = s.events ++ (match cb with
          | some i => [Ev.cb i false]
          | none => []) ++ [Ev.finish, Ev.endE]
    ∧ (drain (endCall none cb s)).endEmitted = true
    ∧ EndInv (step a s') := by
  refine ⟨?_, ?_, EndInv_step a s' hInv⟩ <;>
    cases cb <;>
      simp [endCall, h1, writeAndFinish, drain, h3, drainFrom, runTask, emit, h2]

theorem end_emits_finish_then_end_witness :
    (drain (endCall none (some 5) initSock)).events
      = initSock.events ++ [Ev.cb 5 false] ++ [Ev.finish, Ev.endE]
    ∧ (drain (endCall none (some 5) initSock)).endEmitted = true
    ∧ EndInv (step Act.micro initSock) := by
  have h := end_emits_finish_then_end initSock initSock (some 5) Act.micro rfl rfl rfl
    (by decide)
  exact ⟨h.1, h.2.1, h.2.2⟩

/-! ### Cork / uncork (for C5) -/

theorem foldl_const_last {α β : Type} (f : α → β) (ws : List α) (hne : ws ≠ [])
    (init : β) : ws.foldl (fun _ p => f p) init = f (ws.getLast hne) := by
  induction ws generalizing init with
  | nil => exact absurd rfl hne
  | cons a l ih =>
    cases l with
    | nil => rfl
    | cons b m =>
      rw [List.foldl_cons, ih (by simp) (f a)]
      exact congrArg f (List.getLast_cons (by simp)).symm

theorem corked_write_fold (ws : List (List Nat × Option Nat)) (t : SockState)
    (ht : t.corked = true) :
    ws.foldl (fun acc p => write p.1 (p.2.map WriteCb.user) acc) t
      = { t with corkedQueue := t.corkedQueue ++ ws.map Prod.fst
                 corkedLastCb := ws.foldl (fun _ p => p.2.map WriteCb.user) t.corkedLastCb } := by
  induction ws generalizing t with
  | nil => simp
  | cons p ws ih =>
    rw [List.foldl_cons]
    have hw : write p.1 (p.2.map WriteCb.user) t
        = { t with corkedQueue := t.corkedQueue ++ [p.1]
                   corkedLastCb := p.2.map WriteCb.user } := by
      simp [write, ht]
    rw [hw]
    rw [ih { t with corkedQueue := t.corkedQueue ++ [p.1]
                    corkedLastCb := p.2.map WriteCb.user } ht]
    simp

/-- C5: while corked, `write(data, cb)` transmits nothing to the underlying
writer; `uncork()` performs exactly one underlying write whose payload is the
concatenation of all queued chunks in enqueue order, clears the cork queue,
attaches only the callback supplied with the last enqueued write, and when
that single write fulfills only that last callback is invoked. -/
theorem cork_uncork_flush (s : SockState) (ws : List (List Nat × Option Nat))
    (hq : s.corkedQueue = []) (hne : ws ≠ []) (hp : s.pendingWrites = []) :
    let t := ws.foldl (fun acc p => write p.1 (p.2.map WriteCb.user) acc) (cork s)
    let u := uncork t
    t.writerWrites = s.writerWrites
    ∧ t.pendingWrites = s.pendingWrites
    ∧ u.writerWrites = s.writerWrites ++ [(ws.map Prod.fst).flatten]
    ∧ u.corkedQueue = []
    ∧ u.pendingWrites = [(ws.getLast hne).2.map WriteCb.user]
    ∧ (settleWrite 0 false u).events
        = u.events ++ (match (ws.getLast hne).2 with
            | some i => [Ev.cb i false]
            | none => []) := by
  intro t u
  have hT := corked_write_fold ws (cork s) rfl
  rw [foldl_const_last (fun p => p.2.map WriteCb.user) ws hne] at hT
  have hTc : t = { s with corked := true
                          corkedQueue := ws.map Prod.fst
                          corkedLastCb := (ws.getLast hne).2.map WriteCb.user } := by
    show ws.foldl (fun acc p => write p.1 (p.2.map WriteCb.user) acc) (cork s) = _
    rw [hT]
    simp [cork, hq]
  have hmapne : ws.map Prod.fst ≠ [] := by
    intro hmap
    exact hne (List.map_eq_nil_iff.mp hmap)
  have hU : u = doWrite (ws.map Prod.fst).flatten ((ws.getLast hne).2.map WriteCb.user)
      { s with corked := false, corkedQueue := []
               corkedLastCb := (ws.getLast hne).2.map WriteCb.user } := by
    show uncork t = _
    rw [hTc]
    simp [uncork, hmapne, doWrite]
  refine ⟨by rw [hTc], by rw [hTc], ?_, ?_, ?_, ?_⟩
  · rw [hU]; simp [doWrite]
  · rw [hU]; simp [doWrite]
  · rw [hU]; simp [doWrite, hp]
  · have hUp : u.pendingWrites = [(ws.getLast hne).2.map WriteCb.user] := by
      rw [hU]; simp [doWrite, hp]
    unfold settleWrite
    rw [hUp]
    cases hlast : (ws.getLast hne).2 with
    | none => simp [runWriteCb]
    | some i => simp [runWriteCb, emit]

theorem cork_uncork_flush_witness :
    let s0 := initSock
    let ws0 : List (List Nat × Option Nat) := [([1, 2], some 0), ([3], some 1)]
    let t := ws0.foldl (fun acc p => write p.1 (p.2.map WriteCb.user) acc) (cork s0)
    let u := uncork t
    t.writerWrites = s0.writerWrites
    ∧ t.pendingWrites = s0.pendingWrites
    ∧ u.writerWrites = s0.writerWrites ++ [(ws0.map Prod.fst).flatten]
    ∧ u.corkedQueue = []
    ∧ u.pendingWrites = [(ws0.getLast (by decide)).2.map WriteCb.user]
    ∧ (settleWrite 0 false u).events
        = u.events ++ (match (ws0.getLast (by decide)).2 with
            | some i => [Ev.cb i false]
            | none => []) :=
  cork_uncork_flush initSock [([1, 2], some 0), ([3], some 1)] rfl (by decide) rfl

theorem end_close_rejection_behavior_witness :
    (endCall none none initSock).writerCloses = initSock.writerCloses + 1
    ∧ (endCall none none initSock).pendingCloses = [CloseCb.emitIfTruthy]
    ∧ settleClose 0 CloseOutcome.rejectedFalsy (endCall none none initSock)
        = { endCall none none initSock with pendingCloses := [] }
    ∧ settleClose 0 CloseOutcome.fulfilled (endCall none none initSock)
        = { endCall none none initSock with pendingCloses := [] }
    ∧ (settleClose 0 CloseOutcome.rejectedTruthy (endCall none none initSock)).events
        = (endCall none none initSock).events ++ [Ev.error] :=
  end_close_rejection_behavior initSock none rfl rfl

/-! ## `request` end-path error normalization: theorems -/

/-- C9: when the upgrade-request write rejects with `undefined`, the
emitted error is normalized to the "Readable was closed" error; any other
(defined) rejection value is surfaced unchanged. -/
theorem request_end_reject_normalization (tr : List JSValue) (v : JSValue)
    (hv : v ≠ JSValue.undef) :
    requestEndRejected tr JSValue.undef = tr ++ [JSValue.errorv "Readable was closed"]
    ∧ requestEndRejected tr v = tr ++ [v] := by
  constructor
  · simp [requestEndRejected, requestEndOnReject]
  · simp [requestEndRejected, requestEndOnReject, hv]

theorem request_end_reject_normalization_witness :
    requestEndRejected [] JSValue.undef = [JSValue.errorv "Readable was closed"]
    ∧ requestEndRejected [] (JSValue.errorv "boom") = [JSValue.errorv "boom"] :=
  request_end_reject_normalization [] (JSValue.errorv "boom") (by decide)

end WsWeb
